import Mathlib

/-!
Shallow embedding of the two scripts of the Nockchain utility repository:

* `create_smart_export.py` — the Export Assembler: walks the project root,
  classifies files into four buckets (handover documents, project plans,
  key files, source-code inventory) and assembles a structured export
  document.
* `kimi_chat.py` — the Interactive Command Relay: dispatches a line of
  input to `read` / `write` / `edit` file commands or a free-form chat
  call against an external chat-completion API.

Python strings are modelled as `List Char`; the filesystem and the chat
API are modelled as explicit oracles (functions) passed to the embedded
operations, and the effect of a write is explicit state passing.
-/

namespace Nockchain

/-- Python strings are modelled as lists of characters. -/
abbrev Str := List Char

/-- Coerce a Lean string literal into the character-list model. -/
def str (s : String) : Str := s.toList

/-- Python `s.lower()` (ASCII case folding, as used by the scripts). -/
def lowerStr (s : Str) : Str := s.map Char.toLower

/-- Python `s.startswith(p)`: `p` is a prefix of `s`. -/
def startsWithB (p s : Str) : Bool :=
  match p with
  | [] => true
  | a :: as =>
    match s with
    | [] => false
    | b :: bs => (a == b) && startsWithB as bs

/-- Python `s.endswith(p)`: `p` is a suffix of `s`. -/
def endsWithB (p s : Str) : Bool := startsWithB p.reverse s.reverse

/-- Python `n in h` on strings: `n` occurs as a contiguous substring of `h`. -/
def containsSub (n : Str) : Str → Bool
  | [] => n.isEmpty
  | c :: rest => startsWithB n (c :: rest) || containsSub n rest

/-- Python `s.strip()`: remove leading and trailing whitespace. -/
def stripWS (s : Str) : Str :=
  ((s.dropWhile Char.isWhitespace).reverse.dropWhile Char.isWhitespace).reverse

/-- Python `s.split(sep, 1)` for a single-character separator, returning
`none` when the separator does not occur (Python would return a
one-element list) and `some (before, after)` for the split at the first
occurrence. -/
def splitOnce (c : Char) : Str → Option (Str × Str)
  | [] => none
  | x :: xs =>
    if x = c then some ([], xs)
    else (splitOnce c xs).map (fun q => (x :: q.1, q.2))

/-- Python `os.path.join(a, b)` for one path component: an absolute `b`
replaces `a`, otherwise `b` is appended to `a` with a `/` separator
inserted unless `a` is empty or already ends in `/`. -/
def osPathJoin (a b : Str) : Str :=
  if b.head? = some '/' then b
  else if a = [] then b
  else if a.getLast? = some '/' then a ++ b
  else a ++ '/' :: b

/-- Python `os.path.basename(p)`: everything after the last `/`. -/
def basename (p : Str) : Str := (p.reverse.takeWhile (fun c => c ≠ '/')).reverse

/-- Python truthiness of an optional string: `None` and the empty string
are falsy, every other string is truthy. -/
def truthy : Option Str → Bool
  | none => false
  | some s => !s.isEmpty

namespace SmartExport

/-!
Embedding of `create_smart_export.py`.  The filesystem is an oracle:
`exists'`, `isdir`, `listdir` and `get_content` model `os.path.exists`,
`os.path.isdir`, `os.listdir` and the script's `get_content` helper
(`None` models the swallowed decode exception).  `os.walk(target_dir)`
is modelled by its yielded entries: each entry carries the chain of
directory names leading from the project root to the visited directory
(`comps`, empty for the root itself) and the file names found there;
the `root` string the script sees is the project root joined with that
chain, exactly as `os.walk` builds it.
-/

/-- One `(root, dirs, files)` triple yielded by `os.walk`, with the root
represented by its chain of directory names below the project root
(the unused `dirs` component is omitted). -/
structure WalkEntry where
  comps : List Str
  files : List Str
deriving DecidableEq

/-- The full sequence of entries yielded by `os.walk(target_dir)`. -/
abbrev Walk := List WalkEntry

/-- The `root` string `os.walk` reports for a visited directory:
the project root joined with the chain of directory names. -/
def rootPath (target_dir : Str) (comps : List Str) : Str :=
  comps.foldl osPathJoin target_dir

/-- Real directory-entry names never contain a path separator. -/
def goodName (s : Str) : Bool := !s.contains '/'

/-- Well-formedness of a modelled walk: every directory name on every
entry's chain is a real directory-entry name. -/
def wfWalk (w : Walk) : Bool := w.all (fun e => e.comps.all goodName)

/-- The fixed allow-list `source_code_extensions` of the script. -/
def source_code_extensions : List Str :=
  [str ".ts", str ".js", str ".rs", str ".css", str ".sh", str ".py"]

/-- The pruning test of the walk loop:
`'.git' in root or 'node_modules' in root or 'exports' in root`. -/
def prunedRoot (root : Str) : Bool :=
  containsSub (str ".git") root || containsSub (str "node_modules") root ||
    containsSub (str "exports") root

/-- The walk loop of `create_smart_export` that fills
`source_code_inventory`: skip every walk entry whose root string matches
the pruning test, and for the rest append the joined path of every file
whose name ends in an allow-listed extension. -/
def inventory (target_dir : Str) : Walk → List Str
  | [] => []
  | e :: w =>
    let root := rootPath target_dir e.comps
    if prunedRoot root then inventory target_dir w
    else
      (e.files.filter
          (fun file => source_code_extensions.any (fun ext => endsWithB ext file))).map
        (fun file => osPathJoin root file)
        ++ inventory target_dir w

/-- Filesystem oracle for the Export Assembler. -/
structure EFS where
  exists' : Str → Bool
  isdir : Str → Bool
  listdir : Str → List Str
  get_content : Str → Option Str
  walk : Walk

/-- One `{file_name, file_path, content}` record of a content-bearing
bucket. -/
structure DocRecord where
  file_name : Str
  file_path : Str
  content : Option Str
deriving DecidableEq

/-- A content-bearing bucket comprehension:
`[{..., "content": get_content(p)} for p in paths if get_content(p)]`. -/
def bucket (fs : EFS) (paths : List Str) : List DocRecord :=
  (paths.filter (fun p => truthy (fs.get_content p))).map
    (fun p => ⟨basename p, p, fs.get_content p⟩)

/-- The Export Document (the four buckets; the constant metadata block
carries no claim-relevant structure). -/
structure ExportDoc where
  handover_documents : List DocRecord
  project_plans : List DocRecord
  key_files : List DocRecord
  source_code_inventory : List Str

/-- The fixed plan-file candidate list of the script. -/
def plan_candidates : List Str := [str "Projectplan.md", str "Nockchainprojectplan.md"]

/-- The fixed key-file candidate list of the script. -/
def key_candidates : List Str :=
  [str "README.md", str "CLAUDE.md", str "package.json", str "docker-compose.yml"]

/-- The assembly logic of `create_smart_export`: resolve the plan and
key-file candidates by existence, enumerate `.md` files of the
`handover` directory when it exists, build the three content-bearing
buckets, and fill the source-code inventory from the walk. -/
def create_smart_export (fs : EFS) (target_dir : Str) : ExportDoc :=
  let handover_path := osPathJoin target_dir (str "handover")
  let plan_paths :=
    (plan_candidates.filter (fun p => fs.exists' (osPathJoin target_dir p))).map
      (fun p => osPathJoin target_dir p)
  let key_file_paths :=
    (key_candidates.filter (fun f => fs.exists' (osPathJoin target_dir f))).map
      (fun f => osPathJoin target_dir f)
  let handover_files :=
    if fs.isdir handover_path then
      ((fs.listdir handover_path).filter (fun f => endsWithB (str ".md") f)).map
        (fun f => osPathJoin handover_path f)
    else []
  { handover_documents := bucket fs handover_files
    project_plans := bucket fs plan_paths
    key_files := bucket fs key_file_paths
    source_code_inventory := inventory target_dir fs.walk }

end SmartExport

namespace KimiChat

/-!
Embedding of the file commands of `kimi_chat.py`.  The filesystem is an
oracle: `read` models the outcome of `open(path).read()` (`Except.error`
carries the rendered exception), `exists'` models `os.path.exists`, and
`writeErr` models whether `open(path, 'w').write(...)` raises (`some e`
carries the rendered exception).  The external chat-completion API is an
oracle `api` from prompt to response text, and the user's answer to the
overwrite confirmation prompt is the oracle value `confirmAnswer`.
-/

/-- Filesystem oracle for the Interactive Command Relay. -/
structure KFS where
  read : Str → Except Str Str
  exists' : Str → Bool
  writeErr : Str → Option Str

/-- The filesystem after a successful write of `content` to `full`. -/
def setFile (fs : KFS) (full content : Str) : KFS where
  read := fun q => if q = full then Except.ok content else fs.read q
  exists' := fun q => if q = full then true else fs.exists' q
  writeErr := fs.writeErr

/-- `read_file`: join the path with the project directory, return the
content on success and `f"Error reading: {e}"` on an exception. -/
def read_file (fs : KFS) (dir fp : Str) : Str :=
  match fs.read (osPathJoin dir fp) with
  | Except.ok content => content
  | Except.error e => str "Error reading: " ++ e

/-- Result of a relay operation: the filesystem afterwards, whether the
overwrite confirmation prompt was shown (an `input()` call ran), and the
returned text. -/
structure Resp where
  fs : KFS
  prompted : Bool
  output : Str

/-- `write_file`: if the target exists, prompt for confirmation and
cancel unless the lowered answer is `y`; then attempt the write,
returning `f"Wrote to {file_path}"` or `f"Error writing: {e}"`. -/
def write_file (fs : KFS) (dir confirmAnswer fp content : Str) : Resp :=
  let full := osPathJoin dir fp
  let attempt : Bool → Resp := fun prompted =>
    match fs.writeErr full with
    | some e => ⟨fs, prompted, str "Error writing: " ++ e⟩
    | none => ⟨setFile fs full content, prompted, str "Wrote to " ++ fp⟩
  if fs.exists' full then
    if lowerStr confirmAnswer ≠ str "y" then ⟨fs, true, str "Cancelled"⟩
    else attempt true
  else attempt false

/-- `get_response`: dispatch one stripped input line to the `read`,
`write` or `edit` command, or fall through to a free-form chat call. -/
def get_response (api : Str → Str) (dir confirmAnswer : Str) (fs : KFS) (prompt : Str) :
    Resp :=
  if startsWithB (str "read ") (lowerStr prompt) then
    ⟨fs, false, read_file fs dir (stripWS (prompt.drop 5))⟩
  else if startsWithB (str "write ") (lowerStr prompt) then
    match splitOnce ' ' (prompt.drop 6) with
    | none => ⟨fs, false, str "Usage: write <file> <content>"⟩
    | some (fp, content) => write_file fs dir confirmAnswer fp content
  else if startsWithB (str "edit ") (lowerStr prompt) then
    match splitOnce ' ' (prompt.drop 5) with
    | none => ⟨fs, false, str "Usage: edit <file> <instruction>"⟩
    | some (fp, instruction) =>
      let content := read_file fs dir fp
      if containsSub (str "Error") content then ⟨fs, false, content⟩
      else
        let new_content :=
          api (str "Original: " ++ content ++ str "\nEdit per: " ++ instruction ++
            str "\nOutput full updated code only.")
        let w := write_file fs dir confirmAnswer fp new_content
        ⟨w.fs, w.prompted, w.output ++ str "\nNew content:\n" ++ new_content⟩
  else ⟨fs, false, api prompt⟩

end KimiChat

/-! Bridge lemmas between the executable string tests and their
propositional counterparts. -/

theorem startsWithB_iff (p s : Str) : startsWithB p s = true ↔ p <+: s := by
  induction p generalizing s with
  | nil => simp [startsWithB]
  | cons a as ih =>
    cases s with
    | nil => simp [startsWithB]
    | cons b bs => simp [startsWithB, List.cons_prefix_cons, ih, And.comm]

theorem endsWithB_iff (p s : Str) : endsWithB p s = true ↔ p <:+ s := by
  rw [endsWithB, startsWithB_iff, List.reverse_prefix]

theorem containsSub_iff (n h : Str) : containsSub n h = true ↔ n <:+: h := by
  induction h with
  | nil => simp [containsSub, List.isEmpty_iff]
  | cons c rest ih => simp [containsSub, startsWithB_iff, ih, List.infix_cons_iff]

/-! Lemmas about `osPathJoin` and `rootPath`. -/

theorem sfx_osPathJoin (a b : Str) : b <:+ osPathJoin a b := by
  unfold osPathJoin
  split
  · exact List.suffix_refl b
  · split
    · exact List.suffix_refl b
    · split
      · exact List.suffix_append a b
      · have h : a ++ '/' :: b = (a ++ ['/']) ++ b := by simp
        rw [h]
        exact List.suffix_append (a ++ ['/']) b

theorem osPathJoin_keeps_infix_of (a b n : Str) (hb : b.head? ≠ some '/')
    (h : n <:+: a) : n <:+: osPathJoin a b := by
  unfold osPathJoin
  rw [if_neg hb]
  by_cases ha : a = ([] : Str)
  · subst ha
    rw [List.infix_nil] at h
    subst h
    simp [List.nil_infix]
  · rw [if_neg ha]
    split
    · exact List.IsInfix.trans h (List.IsPrefix.isInfix (List.prefix_append a b))
    · exact List.IsInfix.trans h (List.IsPrefix.isInfix (List.prefix_append a ('/' :: b)))

theorem SmartExport.goodName_head (b : Str) (hb : SmartExport.goodName b = true) :
    b.head? ≠ some '/' := by
  cases b with
  | nil => simp
  | cons c rest =>
    simp only [SmartExport.goodName, List.contains_cons, Bool.not_eq_true',
      Bool.or_eq_false_iff, beq_iff_eq] at hb
    simp only [List.head?_cons, ne_eq, Option.some.injEq]
    intro hc
    exact absurd hc.symm (by simpa using hb.1)

theorem SmartExport.rootPath_keeps_infix (td : Str) (comps : List Str) (n : Str)
    (hg : ∀ c ∈ comps, SmartExport.goodName c = true) (h : n <:+: td) :
    n <:+: SmartExport.rootPath td comps := by
  induction comps generalizing td with
  | nil => exact h
  | cons c cs ih =>
    have hstep : n <:+: osPathJoin td c :=
      osPathJoin_keeps_infix_of td c n
        (SmartExport.goodName_head c (hg c (List.mem_cons_self c cs))) h
    exact ih (osPathJoin td c) (fun d hd => hg d (List.mem_cons_of_mem c hd)) hstep

theorem SmartExport.mem_comps_infix_rootPath (td : Str) (comps : List Str) (m : Str)
    (hg : ∀ c ∈ comps, SmartExport.goodName c = true) (hm : m ∈ comps) :
    m <:+: SmartExport.rootPath td comps := by
  induction comps generalizing td with
  | nil => cases hm
  | cons c cs ih =>
    rcases List.mem_cons.mp hm with h | h
    · subst h
      exact SmartExport.rootPath_keeps_infix (osPathJoin td m) cs m
        (fun d hd => hg d (List.mem_cons_of_mem m hd))
        (List.IsSuffix.isInfix (sfx_osPathJoin td m))
    · exact ih (osPathJoin td c) (fun d hd => hg d (List.mem_cons_of_mem c hd)) h

/-! Membership characterizations for the inventory and the buckets. -/

theorem SmartExport.mem_inventory (td p : Str) (w : SmartExport.Walk) :
    p ∈ SmartExport.inventory td w ↔
      ∃ e ∈ w, SmartExport.prunedRoot (SmartExport.rootPath td e.comps) = false ∧
        ∃ f ∈ e.files,
          SmartExport.source_code_extensions.any (fun ext => endsWithB ext f) = true ∧
          p = osPathJoin (SmartExport.rootPath td e.comps) f := by
  induction w with
  | nil => simp [SmartExport.inventory]
  | cons e rest ih =>
    by_cases hpr : SmartExport.prunedRoot (SmartExport.rootPath td e.comps) = true
    · rw [SmartExport.inventory, if_pos hpr, ih]
      constructor
      · rintro ⟨e', he', hx⟩
        exact ⟨e', List.mem_cons_of_mem e he', hx⟩
      · rintro ⟨e', he', hpr', hx⟩
        rcases List.mem_cons.mp he' with h | h
        · subst h
          rw [hpr] at hpr'
          cases hpr'
        · exact ⟨e', h, hpr', hx⟩
    · rw [SmartExport.inventory, if_neg hpr]
      rw [Bool.not_eq_true] at hpr
      simp only [List.mem_append, List.mem_map, List.mem_filter, ih]
      constructor
      · rintro (⟨f, ⟨hf, hext⟩, hp⟩ | ⟨e', he', hx⟩)
        · exact ⟨e, List.mem_cons_self e rest, hpr, f, hf, hext, hp.symm⟩
        · exact ⟨e', List.mem_cons_of_mem e he', hx⟩
      · rintro ⟨e', he', hpr', f, hf, hext, hp⟩
        rcases List.mem_cons.mp he' with h | h
        · subst h
          exact Or.inl ⟨f, ⟨hf, hext⟩, hp.symm⟩
        · exact Or.inr ⟨e', h, hpr', f, hf, hext, hp⟩

theorem SmartExport.mem_bucket (fs : SmartExport.EFS) (paths : List Str)
    (r : SmartExport.DocRecord) :
    r ∈ SmartExport.bucket fs paths ↔
      ∃ q ∈ paths, truthy (fs.get_content q) = true ∧
        r = ⟨basename q, q, fs.get_content q⟩ := by
  simp only [SmartExport.bucket, List.mem_map, List.mem_filter]
  constructor
  · rintro ⟨q, ⟨hq, ht⟩, hr⟩
    exact ⟨q, hq, ht, hr.symm⟩
  · rintro ⟨q, hq, ht, hr⟩
    exact ⟨q, ⟨hq, ht⟩, hr.symm⟩

/-! Shape lemmas for the three content-bearing buckets of the assembled
document. -/

theorem SmartExport.handover_shape (fs : SmartExport.EFS) (td : Str)
    (r : SmartExport.DocRecord)
    (h : r ∈ (SmartExport.create_smart_export fs td).handover_documents) :
    r.content = fs.get_content r.file_path ∧
    truthy (fs.get_content r.file_path) = true ∧ str ".md" <:+ r.file_path := by
  simp only [SmartExport.create_smart_export] at h
  rcases (SmartExport.mem_bucket _ _ _).mp h with ⟨q, hq, ht, hr⟩
  subst hr
  refine ⟨rfl, ht, ?_⟩
  by_cases hd : fs.isdir (osPathJoin td (str "handover")) = true
  · rw [if_pos hd] at hq
    rcases List.mem_map.mp hq with ⟨f, hf, hfq⟩
    rcases List.mem_filter.mp hf with ⟨-, hmd⟩
    exact List.IsSuffix.trans ((endsWithB_iff _ _).mp hmd) (hfq ▸ sfx_osPathJoin _ f)
  · rw [if_neg hd] at hq
    cases hq

theorem SmartExport.plans_shape (fs : SmartExport.EFS) (td : Str)
    (r : SmartExport.DocRecord)
    (h : r ∈ (SmartExport.create_smart_export fs td).project_plans) :
    r.content = fs.get_content r.file_path ∧
    truthy (fs.get_content r.file_path) = true ∧
    ∃ f ∈ SmartExport.plan_candidates, f <:+ r.file_path := by
  simp only [SmartExport.create_smart_export] at h
  rcases (SmartExport.mem_bucket _ _ _).mp h with ⟨q, hq, ht, hr⟩
  subst hr
  refine ⟨rfl, ht, ?_⟩
  rcases List.mem_map.mp hq with ⟨f, hf, hfq⟩
  rcases List.mem_filter.mp hf with ⟨hfc, -⟩
  exact ⟨f, hfc, hfq ▸ sfx_osPathJoin _ f⟩

theorem SmartExport.keys_shape (fs : SmartExport.EFS) (td : Str)
    (r : SmartExport.DocRecord)
    (h : r ∈ (SmartExport.create_smart_export fs td).key_files) :
    r.content = fs.get_content r.file_path ∧
    truthy (fs.get_content r.file_path) = true ∧
    ∃ f ∈ SmartExport.key_candidates, f <:+ r.file_path := by
  simp only [SmartExport.create_smart_export] at h
  rcases (SmartExport.mem_bucket _ _ _).mp h with ⟨q, hq, ht, hr⟩
  subst hr
  refine ⟨rfl, ht, ?_⟩
  rcases List.mem_map.mp hq with ⟨f, hf, hfq⟩
  rcases List.mem_filter.mp hf with ⟨hfc, -⟩
  exact ⟨f, hfc, hfq ▸ sfx_osPathJoin _ f⟩

/-! Suffix-clash machinery for the disjointness of the selection
predicates. -/

def sfxClash (s t : Str) : Bool :=
  if s.length ≤ t.length then endsWithB s t else endsWithB t s

theorem sfxClash_of_suffixes {p s t : Str} (h1 : s <:+ p) (h2 : t <:+ p) :
    sfxClash s t = true := by
  unfold sfxClash
  split
  · rename_i hle
    exact (endsWithB_iff s t).mpr (List.suffix_of_suffix_length_le h1 h2 hle)
  · rename_i hgt
    exact (endsWithB_iff t s).mpr
      (List.suffix_of_suffix_length_le h2 h1 (Nat.le_of_not_le hgt))

theorem md_ext_no_clash :
    ∀ ext ∈ SmartExport.source_code_extensions, sfxClash (str ".md") ext = false := by
  decide

theorem plan_ext_no_clash :
    ∀ f ∈ SmartExport.plan_candidates,
      ∀ ext ∈ SmartExport.source_code_extensions, sfxClash f ext = false := by
  decide

theorem key_ext_no_clash :
    ∀ f ∈ SmartExport.key_candidates,
      ∀ ext ∈ SmartExport.source_code_extensions, sfxClash f ext = false := by
  decide

/-! Pruning lemmas for the walk. -/

theorem SmartExport.prunedRoot_rootPath (td : Str) (comps : List Str)
    (hg : ∀ c ∈ comps, SmartExport.goodName c = true)
    (h : SmartExport.prunedRoot td = true) :
    SmartExport.prunedRoot (SmartExport.rootPath td comps) = true := by
  simp only [SmartExport.prunedRoot, Bool.or_eq_true, containsSub_iff] at h ⊢
  rcases h with (h | h) | h
  · exact Or.inl (Or.inl (SmartExport.rootPath_keeps_infix td comps _ hg h))
  · exact Or.inl (Or.inr (SmartExport.rootPath_keeps_infix td comps _ hg h))
  · exact Or.inr (SmartExport.rootPath_keeps_infix td comps _ hg h)

theorem SmartExport.inventory_nil_of_all_pruned (td : Str) (w : SmartExport.Walk)
    (h : ∀ e ∈ w, SmartExport.prunedRoot (SmartExport.rootPath td e.comps) = true) :
    SmartExport.inventory td w = [] := by
  induction w with
  | nil => rfl
  | cons e rest ih =>
    rw [SmartExport.inventory, if_pos (h e (List.mem_cons_self e rest))]
    exact ih (fun e' he' => h e' (List.mem_cons_of_mem e he'))

theorem SmartExport.wf_comps (w : SmartExport.Walk) (e : SmartExport.WalkEntry)
    (hwf : SmartExport.wfWalk w = true) (he : e ∈ w) :
    ∀ c ∈ e.comps, SmartExport.goodName c = true :=
  fun c hc => (List.all_eq_true.mp ((List.all_eq_true.mp hwf) e he)) c hc

/-- Claim C2: for every directory tree (modelled by a well-formed
`os.walk` result), every path the Export Assembler places in
`source_code_inventory` ends with one of the extensions `.ts`, `.js`,
`.rs`, `.css`, `.sh`, `.py`, and the walk entry it arises from lies
under no `.git`, `node_modules` or `exports` subtree (no such name
occurs on its directory chain). -/
theorem c2_inventory_allowlist_and_pruning (fs : SmartExport.EFS) (td p : Str)
    (hwf : SmartExport.wfWalk fs.walk = true)
    (hp : p ∈ (SmartExport.create_smart_export fs td).source_code_inventory) :
    (∃ ext ∈ SmartExport.source_code_extensions, ext <:+ p) ∧
    ∃ e ∈ fs.walk, ∃ f ∈ e.files,
      p = osPathJoin (SmartExport.rootPath td e.comps) f ∧
      str ".git" ∉ e.comps ∧ str "node_modules" ∉ e.comps ∧ str "exports" ∉ e.comps := by
  have hp' : p ∈ SmartExport.inventory td fs.walk := by
    simpa [SmartExport.create_smart_export] using hp
  rcases (SmartExport.mem_inventory td p fs.walk).mp hp' with
    ⟨e, he, hpr, f, hf, hext, hpeq⟩
  have hg : ∀ c ∈ e.comps, SmartExport.goodName c = true :=
    SmartExport.wf_comps fs.walk e hwf he
  constructor
  · rcases List.any_eq_true.mp hext with ⟨ext, hem, hef⟩
    exact ⟨ext, hem,
      List.IsSuffix.trans ((endsWithB_iff _ _).mp hef) (hpeq ▸ sfx_osPathJoin _ f)⟩
  · refine ⟨e, he, f, hf, hpeq, ?_, ?_, ?_⟩ <;> intro hmem <;>
      have hct := (containsSub_iff _ _).mpr
        (SmartExport.mem_comps_infix_rootPath td e.comps _ hg hmem) <;>
      simp [SmartExport.prunedRoot, hct] at hpr

/-- Claim C3: no path in `source_code_inventory` is also the
`file_path` of a record in `handover_documents`, `project_plans` or
`key_files`: the content-bearing buckets select by `.md` suffix or by
the fixed key-file names, none of which ends with an allow-listed
source-code extension. -/
theorem c3_inventory_disjoint_from_buckets (fs : SmartExport.EFS) (td p : Str)
    (r : SmartExport.DocRecord)
    (hp : p ∈ (SmartExport.create_smart_export fs td).source_code_inventory)
    (hr : r ∈ (SmartExport.create_smart_export fs td).handover_documents ∨
      r ∈ (SmartExport.create_smart_export fs td).project_plans ∨
      r ∈ (SmartExport.create_smart_export fs td).key_files) :
    r.file_path ≠ p := by
  intro hfp
  have hp' : p ∈ SmartExport.inventory td fs.walk := by
    simpa [SmartExport.create_smart_export] using hp
  rcases (SmartExport.mem_inventory td p fs.walk).mp hp' with
    ⟨e, he, hpr, f, hf, hext, hpeq⟩
  rcases List.any_eq_true.mp hext with ⟨ext, hem, hef⟩
  have hsuf : ext <:+ p :=
    List.IsSuffix.trans ((endsWithB_iff _ _).mp hef) (hpeq ▸ sfx_osPathJoin _ f)
  rcases hr with h | h | h
  · rcases SmartExport.handover_shape fs td r h with ⟨-, -, hmd⟩
    rw [hfp] at hmd
    have hcl := sfxClash_of_suffixes hmd hsuf
    rw [md_ext_no_clash ext hem] at hcl
    cases hcl
  · rcases SmartExport.plans_shape fs td r h with ⟨-, -, g, hgc, hgs⟩
    rw [hfp] at hgs
    have hcl := sfxClash_of_suffixes hgs hsuf
    rw [plan_ext_no_clash g hgc ext hem] at hcl
    cases hcl
  · rcases SmartExport.keys_shape fs td r h with ⟨-, -, g, hgc, hgs⟩
    rw [hfp] at hgs
    have hcl := sfxClash_of_suffixes hgs hsuf
    rw [key_ext_no_clash g hgc ext hem] at hcl
    cases hcl

/-- Claim C4: every record of `handover_documents`, `project_plans` or
`key_files` has a present, non-null `content` field: the bucket
comprehensions filter on the truthiness of `get_content`, so only
records whose content decoded to `some` text survive. -/
theorem c4_bucket_content_not_null (fs : SmartExport.EFS) (td : Str)
    (r : SmartExport.DocRecord)
    (hr : r ∈ (SmartExport.create_smart_export fs td).handover_documents ∨
      r ∈ (SmartExport.create_smart_export fs td).project_plans ∨
      r ∈ (SmartExport.create_smart_export fs td).key_files) :
    ∃ s, r.content = some s := by
  have h : r.content = fs.get_content r.file_path ∧
      truthy (fs.get_content r.file_path) = true := by
    rcases hr with h | h | h
    · rcases SmartExport.handover_shape fs td r h with ⟨h1, h2, -⟩
      exact ⟨h1, h2⟩
    · rcases SmartExport.plans_shape fs td r h with ⟨h1, h2, -⟩
      exact ⟨h1, h2⟩
    · rcases SmartExport.keys_shape fs td r h with ⟨h1, h2, -⟩
      exact ⟨h1, h2⟩
  rcases h with ⟨hc, ht⟩
  cases hgc : fs.get_content r.file_path with
  | none =>
    rw [hgc] at ht
    simp [truthy] at ht
  | some s => exact ⟨s, by rw [hc, hgc]⟩

/-- Claim C5: a path whose content cannot be decoded (`get_content`
raises, modelled as `none`) yields no record in any of the three
content-bearing buckets; the export document is still assembled
(`create_smart_export` is total on the model). -/
theorem c5_unreadable_record_omitted (fs : SmartExport.EFS) (td p : Str)
    (hnone : fs.get_content p = none) :
    (∀ r ∈ (SmartExport.create_smart_export fs td).handover_documents,
        r.file_path ≠ p) ∧
    (∀ r ∈ (SmartExport.create_smart_export fs td).project_plans, r.file_path ≠ p) ∧
    (∀ r ∈ (SmartExport.create_smart_export fs td).key_files, r.file_path ≠ p) := by
  refine ⟨fun r hrm => ?_, fun r hrm => ?_, fun r hrm => ?_⟩ <;> intro hfp
  · rcases SmartExport.handover_shape fs td r hrm with ⟨-, ht, -⟩
    rw [hfp, hnone] at ht
    simp [truthy] at ht
  · rcases SmartExport.plans_shape fs td r hrm with ⟨-, ht, -⟩
    rw [hfp, hnone] at ht
    simp [truthy] at ht
  · rcases SmartExport.keys_shape fs td r hrm with ⟨-, ht, -⟩
    rw [hfp, hnone] at ht
    simp [truthy] at ht

/-- Claim C6: when the `handover` subdirectory of the project root does
not exist, `handover_documents` is the empty sequence (and the run
still completes: the document is assembled regardless). -/
theorem c6_no_handover_dir_empty_bucket (fs : SmartExport.EFS) (td : Str)
    (h : fs.isdir (osPathJoin td (str "handover")) = false) :
    (SmartExport.create_smart_export fs td).handover_documents = [] := by
  simp [SmartExport.create_smart_export, SmartExport.bucket, h]

/-- Claim C9: a readable file whose decoded content is the empty string
is omitted from all three content-bearing buckets, because the bucket
filter tests Python truthiness of the content, not merely non-null. -/
theorem c9_empty_content_record_omitted (fs : SmartExport.EFS) (td p : Str)
    (hempty : fs.get_content p = some []) :
    (∀ r ∈ (SmartExport.create_smart_export fs td).handover_documents,
        r.file_path ≠ p) ∧
    (∀ r ∈ (SmartExport.create_smart_export fs td).project_plans, r.file_path ≠ p) ∧
    (∀ r ∈ (SmartExport.create_smart_export fs td).key_files, r.file_path ≠ p) := by
  refine ⟨fun r hrm => ?_, fun r hrm => ?_, fun r hrm => ?_⟩ <;> intro hfp
  · rcases SmartExport.handover_shape fs td r hrm with ⟨-, ht, -⟩
    rw [hfp, hempty] at ht
    simp [truthy] at ht
  · rcases SmartExport.plans_shape fs td r hrm with ⟨-, ht, -⟩
    rw [hfp, hempty] at ht
    simp [truthy] at ht
  · rcases SmartExport.keys_shape fs td r hrm with ⟨-, ht, -⟩
    rw [hfp, hempty] at ht
    simp [truthy] at ht

/-- Claim C10: when the project root's own path contains `.git`,
`node_modules` or `exports` as a substring, every walked root matches
the substring pruning test, so `source_code_inventory` is empty. -/
theorem c10_marked_root_empty_inventory (fs : SmartExport.EFS) (td : Str)
    (hwf : SmartExport.wfWalk fs.walk = true)
    (h : SmartExport.prunedRoot td = true) :
    (SmartExport.create_smart_export fs td).source_code_inventory = [] := by
  have hall : ∀ e ∈ fs.walk,
      SmartExport.prunedRoot (SmartExport.rootPath td e.comps) = true :=
    fun e he =>
      SmartExport.prunedRoot_rootPath td e.comps
        (SmartExport.wf_comps fs.walk e hwf he) h
  simpa [SmartExport.create_smart_export] using
    SmartExport.inventory_nil_of_all_pruned td fs.walk hall

/-! Concrete filesystem fixtures used to witness the theorems above. -/

/-- A project with one handover document and one source file. -/
def wfsA : SmartExport.EFS where
  exists' := fun _ => false
  isdir := fun _ => true
  listdir := fun _ => [str "notes.md"]
  get_content := fun _ => some (str "hello")
  walk := [⟨[], [str "main.py"]⟩]

/-- The handover record `wfsA` produces. -/
def recA : SmartExport.DocRecord :=
  ⟨str "notes.md", str "/proj/handover/notes.md", some (str "hello")⟩

/-- A project where reading `README.md` fails to decode. -/
def wfsB : SmartExport.EFS where
  exists' := fun _ => true
  isdir := fun _ => false
  listdir := fun _ => []
  get_content := fun q => if q = str "/proj/README.md" then none else some (str "x")
  walk := []

/-- A project where `README.md` decodes to the empty string. -/
def wfsC : SmartExport.EFS where
  exists' := fun _ => true
  isdir := fun _ => false
  listdir := fun _ => []
  get_content := fun q => if q = str "/proj/README.md" then some [] else some (str "x")
  walk := []

theorem c2_witness :
    SmartExport.wfWalk wfsA.walk = true ∧
    str "/proj/main.py" ∈
      (SmartExport.create_smart_export wfsA (str "/proj")).source_code_inventory ∧
    ((∃ ext ∈ SmartExport.source_code_extensions, ext <:+ str "/proj/main.py") ∧
      ∃ e ∈ wfsA.walk, ∃ f ∈ e.files,
        str "/proj/main.py" =
          osPathJoin (SmartExport.rootPath (str "/proj") e.comps) f ∧
        str ".git" ∉ e.comps ∧ str "node_modules" ∉ e.comps ∧
        str "exports" ∉ e.comps) :=
  ⟨by decide, by decide,
    c2_inventory_allowlist_and_pruning wfsA (str "/proj") (str "/proj/main.py")
      (by decide) (by decide)⟩

theorem c3_witness :
    str "/proj/main.py" ∈
      (SmartExport.create_smart_export wfsA (str "/proj")).source_code_inventory ∧
    recA ∈ (SmartExport.create_smart_export wfsA (str "/proj")).handover_documents ∧
    recA.file_path ≠ str "/proj/main.py" :=
  ⟨by decide, by decide,
    c3_inventory_disjoint_from_buckets wfsA (str "/proj") (str "/proj/main.py") recA
      (by decide) (Or.inl (by decide))⟩

theorem c4_witness :
    recA ∈ (SmartExport.create_smart_export wfsA (str "/proj")).handover_documents ∧
    ∃ s, recA.content = some s :=
  ⟨by decide,
    c4_bucket_content_not_null wfsA (str "/proj") recA (Or.inl (by decide))⟩

theorem c5_witness :
    wfsB.get_content (str "/proj/README.md") = none ∧
    ((∀ r ∈ (SmartExport.create_smart_export wfsB (str "/proj")).handover_documents,
        r.file_path ≠ str "/proj/README.md") ∧
      (∀ r ∈ (SmartExport.create_smart_export wfsB (str "/proj")).project_plans,
        r.file_path ≠ str "/proj/README.md") ∧
      (∀ r ∈ (SmartExport.create_smart_export wfsB (str "/proj")).key_files,
        r.file_path ≠ str "/proj/README.md")) :=
  ⟨by decide,
    c5_unreadable_record_omitted wfsB (str "/proj") (str "/proj/README.md") (by decide)⟩

theorem c6_witness :
    wfsB.isdir (osPathJoin (str "/proj") (str "handover")) = false ∧
    (SmartExport.create_smart_export wfsB (str "/proj")).handover_documents = [] :=
  ⟨by decide, c6_no_handover_dir_empty_bucket wfsB (str "/proj") (by decide)⟩

theorem c9_witness :
    wfsC.get_content (str "/proj/README.md") = some [] ∧
    ((∀ r ∈ (SmartExport.create_smart_export wfsC (str "/proj")).handover_documents,
        r.file_path ≠ str "/proj/README.md") ∧
      (∀ r ∈ (SmartExport.create_smart_export wfsC (str "/proj")).project_plans,
        r.file_path ≠ str "/proj/README.md") ∧
      (∀ r ∈ (SmartExport.create_smart_export wfsC (str "/proj")).key_files,
        r.file_path ≠ str "/proj/README.md")) :=
  ⟨by decide,
    c9_empty_content_record_omitted wfsC (str "/proj") (str "/proj/README.md")
      (by decide)⟩

theorem c10_witness :
    SmartExport.wfWalk wfsA.walk = true ∧
    SmartExport.prunedRoot (str "/home/exports") = true ∧
    (SmartExport.create_smart_export wfsA
        (str "/home/exports")).source_code_inventory = [] :=
  ⟨by decide, by decide,
    c10_marked_root_empty_inventory wfsA (str "/home/exports") (by decide) (by decide)⟩

/-! Lemmas for the Interactive Command Relay. -/

theorem splitOnce_append (fp rest : Str) (c : Char) (h : c ∉ fp) :
    splitOnce c (fp ++ c :: rest) = some (fp, rest) := by
  induction fp with
  | nil => simp [splitOnce]
  | cons a as ih =>
    have hac : a ≠ c := fun hh => h (hh ▸ List.mem_cons_self a as)
    have has : c ∉ as := fun hh => h (List.mem_cons_of_mem a hh)
    simp [splitOnce, hac, ih has]

theorem KimiChat.setFile_read_self (fs : KimiChat.KFS) (full content : Str) :
    (KimiChat.setFile fs full content).read full = Except.ok content := by
  simp [KimiChat.setFile]

theorem KimiChat.write_file_new (fs : KimiChat.KFS) (dir ca fp content : Str)
    (hex : fs.exists' (osPathJoin dir fp) = false)
    (hw : fs.writeErr (osPathJoin dir fp) = none) :
    KimiChat.write_file fs dir ca fp content =
      ⟨KimiChat.setFile fs (osPathJoin dir fp) content, false, str "Wrote to " ++ fp⟩ := by
  simp [KimiChat.write_file, hex, hw]

theorem KimiChat.write_file_confirmed (fs : KimiChat.KFS) (dir ca fp content : Str)
    (hca : lowerStr ca = str "y")
    (hw : fs.writeErr (osPathJoin dir fp) = none) :
    (KimiChat.write_file fs dir ca fp content).fs =
      KimiChat.setFile fs (osPathJoin dir fp) content ∧
    (KimiChat.write_file fs dir ca fp content).output = str "Wrote to " ++ fp := by
  rw [KimiChat.write_file]
  cases hex : fs.exists' (osPathJoin dir fp) with
  | false => simp [hex, hw]
  | true => simp [hex, hw, hca]

/-- Claim C8: an input line `read <path>` whose target cannot be read
returns a string containing the error indicator `Error` instead of an
unhandled exception (the embedded `get_response` is total and renders
the caught exception inline). -/
theorem c8_read_error_rendered_inline (api : Str → Str) (dir ca fp e : Str)
    (fs : KimiChat.KFS)
    (h : fs.read (osPathJoin dir (stripWS fp)) = Except.error e) :
    containsSub (str "Error")
      (KimiChat.get_response api dir ca fs (str "read " ++ fp)).output = true := by
  have h0 : KimiChat.get_response api dir ca fs (str "read " ++ fp) =
      ⟨fs, false, KimiChat.read_file fs dir (stripWS fp)⟩ := rfl
  rw [h0]
  show containsSub (str "Error") (KimiChat.read_file fs dir (stripWS fp)) = true
  simp only [KimiChat.read_file, h]
  rfl

/-- Claim C7: an input line `write <path> <content>` whose target does
not exist writes the literal content without showing the overwrite
confirmation prompt, and reports `Wrote to <path>`. -/
theorem c7_write_new_file_unprompted (api : Str → Str) (dir ca : Str)
    (fs : KimiChat.KFS) (fp content : Str)
    (hsp : ' ' ∉ fp)
    (hex : fs.exists' (osPathJoin dir fp) = false)
    (hw : fs.writeErr (osPathJoin dir fp) = none) :
    (KimiChat.get_response api dir ca fs
        (str "write " ++ (fp ++ ' ' :: content))).prompted = false ∧
    (KimiChat.get_response api dir ca fs
        (str "write " ++ (fp ++ ' ' :: content))).output = str "Wrote to " ++ fp ∧
    ((KimiChat.get_response api dir ca fs
        (str "write " ++ (fp ++ ' ' :: content))).fs).read (osPathJoin dir fp) =
      Except.ok content := by
  have h0 : KimiChat.get_response api dir ca fs (str "write " ++ (fp ++ ' ' :: content)) =
      match splitOnce ' ' (fp ++ ' ' :: content) with
      | none => ⟨fs, false, str "Usage: write <file> <content>"⟩
      | some (fp', content') => KimiChat.write_file fs dir ca fp' content' := rfl
  have h1 : KimiChat.get_response api dir ca fs (str "write " ++ (fp ++ ' ' :: content)) =
      KimiChat.write_file fs dir ca fp content := by
    rw [h0, splitOnce_append fp content ' ' hsp]
  rw [h1, KimiChat.write_file_new fs dir ca fp content hex hw]
  exact ⟨rfl, rfl, KimiChat.setFile_read_self fs (osPathJoin dir fp) content⟩

/-- Claim C1 (amended): for an input line `edit <path> <instruction>`
where reading the target succeeds, the content does not contain the
substring `Error`, the overwrite confirmation is answered `y`, and the
write itself raises no exception, the relay sends the file content
together with the instruction to the chat-completion API and the file
afterwards holds exactly the API's response string. -/
theorem c1_edit_writes_api_response (api : Str → Str) (dir ca : Str)
    (fs : KimiChat.KFS) (fp instruction c : Str)
    (hsp : ' ' ∉ fp)
    (hread : fs.read (osPathJoin dir fp) = Except.ok c)
    (herr : containsSub (str "Error") c = false)
    (hca : lowerStr ca = str "y")
    (hw : fs.writeErr (osPathJoin dir fp) = none) :
    ((KimiChat.get_response api dir ca fs
        (str "edit " ++ (fp ++ ' ' :: instruction))).fs).read (osPathJoin dir fp) =
      Except.ok (api (str "Original: " ++ c ++ str "\nEdit per: " ++ instruction ++
        str "\nOutput full updated code only.")) := by
  have h0 : KimiChat.get_response api dir ca fs (str "edit " ++ (fp ++ ' ' :: instruction)) =
      match splitOnce ' ' (fp ++ ' ' :: instruction) with
      | none => ⟨fs, false, str "Usage: edit <file> <instruction>"⟩
      | some (fp', instruction') =>
        let content := KimiChat.read_file fs dir fp'
        if containsSub (str "Error") content then ⟨fs, false, content⟩
        else
          let new_content :=
            api (str "Original: " ++ content ++ str "\nEdit per: " ++ instruction' ++
              str "\nOutput full updated code only.")
          let w := KimiChat.write_file fs dir ca fp' new_content
          ⟨w.fs, w.prompted, w.output ++ str "\nNew content:\n" ++ new_content⟩ := rfl
  have hcontent : KimiChat.read_file fs dir fp = c := by
    simp [KimiChat.read_file, hread]
  rw [h0, splitOnce_append fp instruction ' ' hsp]
  simp only [hcontent, herr, Bool.false_eq_true, if_false]
  rw [(KimiChat.write_file_confirmed fs dir ca fp _ hca hw).1]
  exact KimiChat.setFile_read_self fs (osPathJoin dir fp) _

/-! Concrete fixtures for the relay theorems. -/

/-- A chat-completion API oracle answering every prompt with `NEWCODE`. -/
def api0 : Str → Str := fun _ => str "NEWCODE"

/-- A filesystem where `/p/f.txt` reads as the text `Error`. -/
def kfs0 : KimiChat.KFS where
  read := fun q => if q = str "/p/f.txt" then Except.ok (str "Error") else
    Except.error (str "no")
  exists' := fun _ => true
  writeErr := fun _ => none

/-- A filesystem where `/p/f.txt` reads as the text `x = 1`. -/
def kfs1 : KimiChat.KFS where
  read := fun q => if q = str "/p/f.txt" then Except.ok (str "x = 1") else
    Except.error (str "no")
  exists' := fun _ => true
  writeErr := fun _ => none

/-- A filesystem where nothing exists and every read raises. -/
def kfs2 : KimiChat.KFS where
  read := fun _ => Except.error (str "No such file")
  exists' := fun _ => false
  writeErr := fun _ => none

/-- Counterexample to claim C1 as stated: reading `/p/f.txt` succeeds
(its content is the text `Error`), the overwrite confirmation would be
answered `y` and the write cannot fail, yet after the input
`edit f.txt fix it` the file still holds its old content instead of the
API's response: the edit branch returns early because the successfully
read content contains the substring `Error`, so nothing is sent to the
API and nothing is written. -/
theorem c1_counterexample :
    kfs0.read (osPathJoin (str "/p") (str "f.txt")) = Except.ok (str "Error") ∧
    ((KimiChat.get_response api0 (str "/p") (str "y") kfs0
        (str "edit f.txt fix it")).fs).read (osPathJoin (str "/p") (str "f.txt")) ≠
      Except.ok (api0 (str "Original: " ++ str "Error" ++ str "\nEdit per: " ++
        str "fix it" ++ str "\nOutput full updated code only.")) := by
  refine ⟨rfl, fun h => ?_⟩
  have h' : (Except.ok (str "Error") : Except Str Str) = Except.ok (str "NEWCODE") := h
  exact absurd (Except.ok.inj h') (by decide)

theorem c1_witness :
    (' ' ∉ str "f.txt") ∧
    kfs1.read (osPathJoin (str "/p") (str "f.txt")) = Except.ok (str "x = 1") ∧
    containsSub (str "Error") (str "x = 1") = false ∧
    lowerStr (str "y") = str "y" ∧
    kfs1.writeErr (osPathJoin (str "/p") (str "f.txt")) = none ∧
    ((KimiChat.get_response api0 (str "/p") (str "y") kfs1
        (str "edit " ++ (str "f.txt" ++ ' ' :: str "set x to 2"))).fs).read
        (osPathJoin (str "/p") (str "f.txt")) =
      Except.ok (api0 (str "Original: " ++ str "x = 1" ++ str "\nEdit per: " ++
        str "set x to 2" ++ str "\nOutput full updated code only.")) :=
  ⟨by decide, rfl, by decide, rfl, rfl,
    c1_edit_writes_api_response api0 (str "/p") (str "y") kfs1 (str "f.txt")
      (str "set x to 2") (str "x = 1") (by decide) rfl (by decide) rfl rfl⟩

theorem c7_witness :
    (' ' ∉ str "out.txt") ∧
    kfs2.exists' (osPathJoin (str "/p") (str "out.txt")) = false ∧
    kfs2.writeErr (osPathJoin (str "/p") (str "out.txt")) = none ∧
    ((KimiChat.get_response api0 (str "/p") (str "y") kfs2
        (str "write " ++ (str "out.txt" ++ ' ' :: str "hello"))).prompted = false ∧
      (KimiChat.get_response api0 (str "/p") (str "y") kfs2
        (str "write " ++ (str "out.txt" ++ ' ' :: str "hello"))).output =
        str "Wrote to " ++ str "out.txt" ∧
      ((KimiChat.get_response api0 (str "/p") (str "y") kfs2
        (str "write " ++ (str "out.txt" ++ ' ' :: str "hello"))).fs).read
        (osPathJoin (str "/p") (str "out.txt")) = Except.ok (str "hello")) :=
  ⟨by decide, rfl, rfl,
    c7_write_new_file_unprompted api0 (str "/p") (str "y") kfs2 (str "out.txt")
      (str "hello") (by decide) rfl rfl⟩

theorem c8_witness :
    kfs2.read (osPathJoin (str "/p") (stripWS (str "missing.txt"))) =
      Except.error (str "No such file") ∧
    containsSub (str "Error")
      (KimiChat.get_response api0 (str "/p") (str "y") kfs2
        (str "read " ++ str "missing.txt")).output = true :=
  ⟨rfl,
    c8_read_error_rendered_inline api0 (str "/p") (str "y") (str "missing.txt")
      (str "No such file") kfs2 rfl⟩

end Nockchain
